import Mathlib

/-!
# Verification of the simple-splat-mesh-viewer IPC file service

Shallow embedding of `src/src-tauri/src/lib.rs` (and the key forwarding of
`src/src-tauri/build.rs`): a handle registry (`FileHandleStore` backed by a
`HashMap<String, FileHandle>` behind a mutex), three IPC commands
(`ipc_open_file`, `ipc_read_bytes`, `ipc_close_file`), and the offset-keyed
XOR transform applied inside `ipc_read_bytes` when the binary is compiled
with `VITRINE_ARCHIVE_KEY`.

Modelling conventions:
- Bytes are `Nat` (in the program always `< 256`; `Nat.xor` agrees with `u8`
  XOR on such values and all theorems hold without the bound).
- A file's on-disk content is a `List Nat`; `read_exact` after a
  `seek(SeekFrom::Start offset)` on a regular file succeeds iff the buffer
  is empty or `offset + length` is within the file, and then yields the
  slice `(content.drop offset).take length`.
- The registry `HashMap` is modelled extensionally as
  `String → Option FileHandle` with pointwise `insert`/`remove`, which is
  exactly the map semantics `ipc_read_bytes`/`ipc_close_file` rely on.
- Rust panics (out-of-bounds indexing, remainder by zero in the XOR loop)
  are modelled by `Option`: a `none` result of the transform, and hence of
  `ipc_read_bytes`, is a panic, not an error return.
- `u64`/`u32` arguments are `Nat`: the code performs no wrapping arithmetic
  on them (`offset as usize` is lossless on the 64-bit targets built here).
-/

set_option autoImplicit false

namespace SplatViewer

/-- One open file resource: the bytes on disk and the size captured from
metadata at open time (`FileHandle { file, size }` in `lib.rs`). -/
structure FileHandle where
  content : List Nat
  size : Nat
  deriving Repr, DecidableEq

/-- The registry map `HashMap<String, FileHandle>`, modelled extensionally. -/
def FileHandleStore : Type := String → Option FileHandle

/-- The empty registry (`FileHandleStore::default()`). -/
def emptyStore : FileHandleStore := fun _ => none

/-- `HashMap::insert` semantics: the new binding shadows any old one. -/
def storeInsert (store : FileHandleStore) (id : String) (h : FileHandle) :
    FileHandleStore :=
  fun k => if k = id then some h else store k

/-- `HashMap::remove` semantics: the binding for `id` is gone. -/
def storeRemove (store : FileHandleStore) (id : String) : FileHandleStore :=
  fun k => if k = id then none else store k

/-- `HashMap::get_mut` semantics: look the handle up. -/
def storeGet (store : FileHandleStore) (id : String) : Option FileHandle :=
  store id

/-- One step of the XOR loop body `buf[i] ^= key[(offset + i) % key_len]`
for the byte at absolute position `p`: `none` models the panic when the
index is out of bounds (in particular `key_len = 0`, where `%` itself
panics in Rust). -/
def xorKeyByte (key : List Nat) (p : Nat) (b : Nat) : Option Nat :=
  (key.get? (p % key.length)).map (fun k => Nat.xor b k)

/-- The XOR loop of `ipc_read_bytes`:
`for (i, byte) in buf.iter_mut().enumerate() { *byte ^= key[(offset + i) % key_len] }`,
with `offset` the absolute file offset of the first byte of `buf`.
`none` models a panic inside the loop. -/
def xorTransform (key : List Nat) (offset : Nat) : List Nat → Option (List Nat)
  | [] => some []
  | b :: rest => do
      let b' ← xorKeyByte key offset b
      let rest' ← xorTransform key (offset + 1) rest
      pure (b' :: rest')

/-- `Read::read_exact` after `seek(SeekFrom::Start pos)` on a regular file of
bytes `content`: an empty buffer succeeds immediately without touching the
file; otherwise the read succeeds iff `pos + length` bytes exist, and a short
read (end of file first) returns the `failed to fill whole buffer` error. -/
def read_exact (content : List Nat) (pos length : Nat) :
    Except String (List Nat) :=
  if length = 0 then .ok []
  else if pos + length ≤ content.length then .ok ((content.drop pos).take length)
  else .error "failed to fill whole buffer"

/-- `ipc_read_bytes(handle_id, offset, length)`.  `key?` is the build-time
transform key: `some key` when the binary was compiled with
`VITRINE_ARCHIVE_KEY` decoding to the byte sequence `key`, `none` otherwise
(including when `hex::decode` fails, in which case the code silently skips
the transform).  The outer `Option` models panics: `none` is a panic in the
XOR loop, `some r` is the returned `Result`. -/
def ipc_read_bytes (keyCfg : Option (List Nat)) (store : FileHandleStore)
    (handle_id : String) (offset length : Nat) :
    Option (Except String (List Nat)) :=
  match storeGet store handle_id with
  | none => some (.error ("Invalid file handle: " ++ handle_id))
  | some entry =>
    match read_exact entry.content offset length with
    | .error e => some (.error e)
    | .ok buf =>
      match keyCfg with
      | none => some (.ok buf)
      | some key => (xorTransform key offset buf).map Except.ok

/-- `ipc_close_file(handle_id)`: removes the binding if present and returns
`Ok(())` unconditionally. -/
def ipc_close_file (store : FileHandleStore) (handle_id : String) :
    Except String Unit × FileHandleStore :=
  (.ok (), storeRemove store handle_id)

/-- Outcome of `File::open` + `metadata()` for one path, as the environment
presents it to `ipc_open_file`. -/
inductive FsEntry where
  | missing (cause : String)
  | metaFail (content : List Nat) (cause : String)
  | ok (content : List Nat)

/-- `ipc_open_file(path)`: on an OS-level open failure the error is
`format!("Failed to open {}: {}", path, e)`; on a metadata failure it is
`e.to_string()` alone; on success a fresh id is bound to the handle and
`(id, size)` is returned.  `fresh` is the id produced by `Uuid::new_v4()`.
The resulting store is returned alongside so registration (or its absence)
is observable. -/
def ipc_open_file (fs : String → FsEntry) (fresh : String)
    (store : FileHandleStore) (path : String) :
    Except String (String × Nat) × FileHandleStore :=
  match fs path with
  | .missing cause => (.error ("Failed to open " ++ path ++ ": " ++ cause), store)
  | .metaFail _ cause => (.error cause, store)
  | .ok content =>
      (.ok (fresh, content.length),
       storeInsert store fresh ⟨content, content.length⟩)

/-! ## Helper lemmas about the transform and the read primitive -/

theorem xorKeyByte_eq_some (key : List Nat) (hk : key ≠ []) (p b : Nat) :
    ∃ k, key.get? (p % key.length) = some k ∧
      xorKeyByte key p b = some (Nat.xor b k) := by
  have hlt : p % key.length < key.length :=
    Nat.mod_lt _ (List.length_pos.mpr hk)
  refine ⟨key.get ⟨p % key.length, hlt⟩, List.get?_eq_get hlt, ?_⟩
  rw [xorKeyByte, List.get?_eq_get hlt, Option.map_some']

theorem xorTransform_isSome (key : List Nat) (hk : key ≠ []) (offset : Nat)
    (buf : List Nat) : ∃ out, xorTransform key offset buf = some out := by
  induction buf generalizing offset with
  | nil => exact ⟨[], rfl⟩
  | cons b rest ih =>
    obtain ⟨k, hget, hbyte⟩ := xorKeyByte_eq_some key hk offset b
    obtain ⟨out, hout⟩ := ih (offset + 1)
    exact ⟨Nat.xor b k :: out, by simp [xorTransform, hbyte, hout]⟩

theorem xorTransform_length (key : List Nat) (offset : Nat)
    (buf out : List Nat) (h : xorTransform key offset buf = some out) :
    out.length = buf.length := by
  induction buf generalizing offset out with
  | nil =>
    simp only [xorTransform, Option.some.injEq] at h
    simp [← h]
  | cons b rest ih =>
    simp only [xorTransform, Option.bind_eq_bind, Option.bind_eq_some] at h
    obtain ⟨b', _, rest', hrest, hout⟩ := h
    simp only [Option.pure_def, Option.some.injEq] at hout
    simp [← hout, ih (offset + 1) rest' hrest]

theorem xorTransform_involutive (key : List Nat) (offset : Nat)
    (buf out : List Nat) (h : xorTransform key offset buf = some out) :
    xorTransform key offset out = some buf := by
  induction buf generalizing offset out with
  | nil =>
    simp only [xorTransform, Option.some.injEq] at h
    simp [← h, xorTransform]
  | cons b rest ih =>
    simp only [xorTransform, Option.bind_eq_bind, Option.bind_eq_some] at h
    obtain ⟨b', hb', rest', hrest, hout⟩ := h
    simp only [Option.pure_def, Option.some.injEq] at hout
    simp only [xorKeyByte, Option.map_eq_some'] at hb'
    obtain ⟨k, hget, hbk⟩ := hb'
    subst hout hbk
    have hbyte : xorKeyByte key offset (Nat.xor b k) = some b := by
      rw [xorKeyByte, hget, Option.map_some']
      exact congrArg some (Nat.xor_cancel_right k b)
    simp [xorTransform, hbyte, ih (offset + 1) rest' hrest]

theorem xorTransform_append (key : List Nat) (offset : Nat)
    (b1 b2 o1 o2 : List Nat) (h1 : xorTransform key offset b1 = some o1)
    (h2 : xorTransform key (offset + b1.length) b2 = some o2) :
    xorTransform key offset (b1 ++ b2) = some (o1 ++ o2) := by
  induction b1 generalizing offset o1 with
  | nil =>
    simp only [xorTransform, Option.some.injEq] at h1
    simpa [← h1] using h2
  | cons b rest ih =>
    simp only [xorTransform, Option.bind_eq_bind, Option.bind_eq_some] at h1
    obtain ⟨b', hb', rest', hrest, ho1⟩ := h1
    simp only [Option.pure_def, Option.some.injEq] at ho1
    have h2' : xorTransform key (offset + 1 + rest.length) b2 = some o2 := by
      have : offset + 1 + rest.length = offset + (b :: rest).length := by
        simp [List.length_cons]; omega
      rwa [this]
    simp [← ho1, xorTransform, hb', ih (offset + 1) rest' hrest h2']

theorem read_exact_of_le (content : List Nat) (pos length : Nat)
    (h : pos + length ≤ content.length) :
    read_exact content pos length = .ok ((content.drop pos).take length) := by
  unfold read_exact
  split
  · simp_all
  · simp [h]

theorem read_exact_length_eq (content : List Nat) (pos length : Nat)
    (buf : List Nat) (h : read_exact content pos length = .ok buf) :
    buf.length = length := by
  unfold read_exact at h
  split at h
  · simp_all
  · split at h
    · simp only [Except.ok.injEq] at h
      subst h
      simp only [List.length_take, List.length_drop]
      omega
    · exact absurd h (by simp)

/-! ## Identifier generation and the operation trace machine -/

/-- Modelled from the spec: `Uuid::new_v4()` is an external library call;
the spec requires that open "generates a fresh globally-unique identifier"
and that "identifiers are unique for the lifetime of the process (never
reused even after removal)".  The generator is modelled as an injective
function of the number of identifiers drawn so far in the process. -/
def uuidGen (n : Nat) : String := String.mk (List.replicate (n + 1) 'u')

theorem uuidGen_injective : Function.Injective uuidGen := by
  intro m n h
  have hdata : List.replicate (m + 1) 'u' = List.replicate (n + 1) 'u' :=
    congrArg String.data h
  have hlen := congrArg List.length hdata
  simp only [List.length_replicate] at hlen
  omega

/-- Process-wide state: the registry behind the mutex plus the state of the
identifier source. -/
structure SysState where
  handles : FileHandleStore
  nextUuid : Nat

/-- State at process start: `FileHandleStore::default()`, no id drawn yet. -/
def initState : SysState := ⟨emptyStore, 0⟩

/-- One IPC command as dispatched by the invoke handler. -/
inductive Op where
  | openFile (path : String)
  | readBytes (id : String) (offset length : Nat)
  | closeFile (id : String)

/-- Dispatch one command against the process state; the second component
lists the identifiers issued by this step (one on a successful open, none
otherwise).  `ipc_read_bytes` never mutates the registry, so `readBytes`
leaves the state unchanged. -/
def stepOp (fs : String → FsEntry) (st : SysState) :
    Op → SysState × List String
  | .openFile path =>
    match ipc_open_file fs (uuidGen st.nextUuid) st.handles path with
    | (.ok (id, _), store') => (⟨store', st.nextUuid + 1⟩, [id])
    | (.error _, store') => (⟨store', st.nextUuid⟩, [])
  | .readBytes _ _ _ => (st, [])
  | .closeFile id => (⟨(ipc_close_file st.handles id).2, st.nextUuid⟩, [])

/-- Run a sequence of IPC commands, accumulating every identifier issued. -/
def runOps (fs : String → FsEntry) (st : SysState) :
    List Op → SysState × List String
  | [] => (st, [])
  | op :: ops =>
    let s1 := stepOp fs st op
    let s2 := runOps fs s1.1 ops
    (s2.1, s1.2 ++ s2.2)

theorem stepOp_ids_spec (fs : String → FsEntry) (st : SysState) (op : Op) :
    st.nextUuid ≤ (stepOp fs st op).1.nextUuid ∧
    ∀ id ∈ (stepOp fs st op).2, ∃ m, st.nextUuid ≤ m ∧
      m < (stepOp fs st op).1.nextUuid ∧ id = uuidGen m := by
  cases op with
  | openFile path =>
    cases h : fs path with
    | missing cause => simp [stepOp, ipc_open_file, h]
    | metaFail content cause => simp [stepOp, ipc_open_file, h]
    | ok content =>
      refine ⟨?_, ?_⟩
      · simp [stepOp, ipc_open_file, h]
      · intro id hid
        simp [stepOp, ipc_open_file, h] at hid
        exact ⟨st.nextUuid, le_refl _, by simp [stepOp, ipc_open_file, h], hid⟩
  | readBytes id offset length => simp [stepOp]
  | closeFile id => simp [stepOp]

theorem runOps_ids_spec (fs : String → FsEntry) (ops : List Op) :
    ∀ st : SysState,
      st.nextUuid ≤ (runOps fs st ops).1.nextUuid ∧
      (runOps fs st ops).2.Nodup ∧
      ∀ id ∈ (runOps fs st ops).2, ∃ m, st.nextUuid ≤ m ∧
        m < (runOps fs st ops).1.nextUuid ∧ id = uuidGen m := by
  induction ops with
  | nil => intro st; simp [runOps]
  | cons op ops ih =>
    intro st
    obtain ⟨hle1, hids1⟩ := stepOp_ids_spec fs st op
    obtain ⟨hle2, hnd2, hids2⟩ := ih (stepOp fs st op).1
    have hstep_nd : (stepOp fs st op).2.Nodup := by
      cases op with
      | openFile path =>
        cases h : fs path with
        | missing cause => simp [stepOp, ipc_open_file, h]
        | metaFail content cause => simp [stepOp, ipc_open_file, h]
        | ok content => simp [stepOp, ipc_open_file, h]
      | readBytes id offset length => simp [stepOp]
      | closeFile id => simp [stepOp]
    have hrun : runOps fs st (op :: ops)
        = ((runOps fs (stepOp fs st op).1 ops).1,
           (stepOp fs st op).2 ++ (runOps fs (stepOp fs st op).1 ops).2) := rfl
    rw [hrun]
    refine ⟨le_trans hle1 hle2, ?_, ?_⟩
    · refine List.Nodup.append hstep_nd hnd2 ?_
      intro id hid1 hid2
      obtain ⟨m1, _, hm1lt, hid1eq⟩ := hids1 id hid1
      obtain ⟨m2, hm2ge, _, hid2eq⟩ := hids2 id hid2
      have : m1 = m2 := uuidGen_injective (hid1eq ▸ hid2eq ▸ rfl)
      omega
    · intro id hid
      rcases List.mem_append.mp hid with h1 | h2
      · obtain ⟨m, hge, hlt, heq⟩ := hids1 id h1
        exact ⟨m, hge, lt_of_lt_of_le hlt hle2, heq⟩
      · obtain ⟨m, hge, hlt, heq⟩ := hids2 id h2
        exact ⟨m, le_trans hle1 hge, hlt, heq⟩

/-! ## Claims -/

/-- C2: for every byte sequence `b`, every key of length ≥ 1, and every
absolute offset, applying the XOR transform twice with the same key and the
same absolute offset restores `b` exactly (the transform is self-inverse). -/
theorem xor_roundtrip_identity (key : List Nat) (hk : 1 ≤ key.length)
    (offset : Nat) (b : List Nat) :
    (xorTransform key offset b).bind (xorTransform key offset) = some b := by
  have hne : key ≠ [] := by
    intro h
    rw [h] at hk
    simp at hk
  obtain ⟨out, hout⟩ := xorTransform_isSome key hne offset b
  rw [hout]
  exact xorTransform_involutive key offset b out hout

theorem xor_roundtrip_identity_witness :
    1 ≤ ([7, 3] : List Nat).length ∧
    (xorTransform [7, 3] 5 [1, 2, 3]).bind (xorTransform [7, 3] 5)
      = some [1, 2, 3] :=
  ⟨by decide, xor_roundtrip_identity [7, 3] (by decide) 5 [1, 2, 3]⟩

/-- C3: a read either returns exactly `length` bytes or an error; a returned
buffer is never shorter (nor longer) than requested. -/
theorem read_returns_exact_length (keyCfg : Option (List Nat))
    (store : FileHandleStore) (id : String) (offset length : Nat)
    (buf : List Nat)
    (h : ipc_read_bytes keyCfg store id offset length = some (.ok buf)) :
    buf.length = length := by
  unfold ipc_read_bytes at h
  split at h
  · simp at h
  · rename_i entry hentry
    split at h
    · simp at h
    · rename_i raw hraw
      have hraw_len := read_exact_length_eq entry.content offset length raw hraw
      split at h
      · simp only [Option.some.injEq, Except.ok.injEq] at h
        rw [← h]
        exact hraw_len
      · rename_i key
        simp only [Option.map_eq_some'] at h
        obtain ⟨out, hout, hok⟩ := h
        have hbuf : out = buf := by
          simpa using hok
        rw [← hbuf, xorTransform_length key offset raw out hout]
        exact hraw_len

theorem read_returns_exact_length_witness :
    ([6, 7] : List Nat).length = 2 :=
  read_returns_exact_length none (storeInsert emptyStore "c3" ⟨[5, 6, 7], 3⟩)
    "c3" 1 2 [6, 7] (by rfl)

/-- C5: `ipc_close_file` returns success for every id — present in the
registry or not — and closing the same id twice succeeds both times. -/
theorem close_always_ok (store : FileHandleStore) (id : String) :
    (ipc_close_file store id).1 = .ok () ∧
    (ipc_close_file (ipc_close_file store id).2 id).1 = .ok () :=
  ⟨rfl, rfl⟩

/-- C6: every successful open issues an identifier distinct from every
identifier previously issued in the process: over any sequence of
operations (opens of the same or different paths, reads, closes in any
interleaving), the identifiers issued are pairwise distinct, and one is
never reused even after its handle is removed by a close. -/
theorem open_ids_pairwise_distinct (fs : String → FsEntry) (ops : List Op) :
    (runOps fs initState ops).2.Nodup :=
  (runOps_ids_spec fs ops initState).2.1

/-- C10: a zero-length read on a valid handle succeeds with the empty byte
sequence, at any offset — including at or beyond end-of-file — with or
without a configured key (the XOR loop body never runs on an empty
buffer). -/
theorem zero_length_read_succeeds (keyCfg : Option (List Nat))
    (store : FileHandleStore) (id : String) (entry : FileHandle)
    (hid : storeGet store id = some entry) (offset : Nat) :
    ipc_read_bytes keyCfg store id offset 0 = some (.ok []) := by
  have hre : read_exact entry.content offset 0 = .ok [] := by
    simp [read_exact]
  cases keyCfg with
  | none => simp [ipc_read_bytes, hid, hre]
  | some key => simp [ipc_read_bytes, hid, hre, xorTransform]

theorem zero_length_read_succeeds_witness :
    ipc_read_bytes (some []) (storeInsert emptyStore "z" ⟨[1], 1⟩) "z" 99 0
      = some (.ok []) :=
  zero_length_read_succeeds (some []) (storeInsert emptyStore "z" ⟨[1], 1⟩)
    "z" ⟨[1], 1⟩ (by decide) 99

/-- C1: for an open file of plaintext content `C` and any split point
`s ≤ len(C)`, the concatenation of `read(id, 0, s)` and
`read(id, s, len(C) - s)` equals `read(id, 0, len(C))`, both with a
configured (nonempty) transform key and without one: the keystream is keyed
by the absolute file offset of each byte, not its position in the returned
buffer. -/
theorem read_windowing_independence (keyCfg : Option (List Nat))
    (hkey : ∀ key, keyCfg = some key → key ≠ [])
    (store : FileHandleStore) (id : String) (entry : FileHandle)
    (hid : storeGet store id = some entry) (s : Nat)
    (hs : s ≤ entry.content.length) :
    ∃ b1 b2 b3,
      ipc_read_bytes keyCfg store id 0 s = some (.ok b1) ∧
      ipc_read_bytes keyCfg store id s (entry.content.length - s)
        = some (.ok b2) ∧
      ipc_read_bytes keyCfg store id 0 entry.content.length
        = some (.ok b3) ∧
      b1 ++ b2 = b3 := by
  have h1 : read_exact entry.content 0 s = .ok (entry.content.take s) := by
    have := read_exact_of_le entry.content 0 s (by omega)
    simpa using this
  have h2 : read_exact entry.content s (entry.content.length - s)
      = .ok (entry.content.drop s) := by
    have := read_exact_of_le entry.content s (entry.content.length - s)
      (by omega)
    rw [this]
    have hdlen : (entry.content.drop s).length = entry.content.length - s :=
      List.length_drop s entry.content
    rw [← hdlen, List.take_length]
  have h3 : read_exact entry.content 0 entry.content.length
      = .ok entry.content := by
    have := read_exact_of_le entry.content 0 entry.content.length (by omega)
    simpa using this
  cases keyCfg with
  | none =>
    exact ⟨entry.content.take s, entry.content.drop s, entry.content,
      by simp [ipc_read_bytes, hid, h1],
      by simp [ipc_read_bytes, hid, h2],
      by simp [ipc_read_bytes, hid, h3],
      List.take_append_drop s entry.content⟩
  | some key =>
    have hne : key ≠ [] := hkey key rfl
    obtain ⟨o1, ho1⟩ := xorTransform_isSome key hne 0 (entry.content.take s)
    obtain ⟨o2, ho2⟩ := xorTransform_isSome key hne s (entry.content.drop s)
    have hlen1 : (entry.content.take s).length = s := by
      rw [List.length_take]
      omega
    have ho2' : xorTransform key (0 + (entry.content.take s).length)
        (entry.content.drop s) = some o2 := by
      rw [hlen1, Nat.zero_add]
      exact ho2
    have ho3 : xorTransform key 0 entry.content = some (o1 ++ o2) := by
      have := xorTransform_append key 0 (entry.content.take s)
        (entry.content.drop s) o1 o2 ho1 ho2'
      rwa [List.take_append_drop] at this
    exact ⟨o1, o2, o1 ++ o2,
      by simp [ipc_read_bytes, hid, h1, ho1],
      by simp [ipc_read_bytes, hid, h2, ho2],
      by simp [ipc_read_bytes, hid, h3, ho3],
      rfl⟩

theorem read_windowing_independence_witness :
    ∃ b1 b2 b3,
      ipc_read_bytes (some [170])
        (storeInsert emptyStore "w" ⟨[1, 2, 3, 4], 4⟩) "w" 0 2
        = some (.ok b1) ∧
      ipc_read_bytes (some [170])
        (storeInsert emptyStore "w" ⟨[1, 2, 3, 4], 4⟩) "w" 2 2
        = some (.ok b2) ∧
      ipc_read_bytes (some [170])
        (storeInsert emptyStore "w" ⟨[1, 2, 3, 4], 4⟩) "w" 0 4
        = some (.ok b3) ∧
      b1 ++ b2 = b3 :=
  read_windowing_independence (some [170])
    (fun key hkey => by cases hkey; decide)
    (storeInsert emptyStore "w" ⟨[1, 2, 3, 4], 4⟩) "w" ⟨[1, 2, 3, 4], 4⟩
    (by decide) 2 (by decide)

/-- C4 counterexample: the claim asserts that a close issued after a close
of the same id fails with an InvalidHandle error; in the code
`ipc_close_file` returns `Ok(())` unconditionally, so the second close
succeeds. -/
theorem close_after_close_succeeds_cex :
    (ipc_close_file
      (ipc_close_file (storeInsert emptyStore "a" ⟨[0], 1⟩) "a").2 "a").1
      = Except.ok () ∧
    ∀ e : String,
      (ipc_close_file
        (ipc_close_file (storeInsert emptyStore "a" ⟨[0], 1⟩) "a").2 "a").1
        ≠ Except.error e := by
  refine ⟨rfl, ?_⟩
  intro e h
  simp [ipc_close_file] at h

/-- C4 (amended): after `close(id)`, any read issued with that id fails
with the InvalidHandle error; a subsequent close of the same id succeeds
(close is idempotent, it does not fail). -/
theorem post_close_read_invalid (keyCfg : Option (List Nat))
    (store : FileHandleStore) (id : String) (offset length : Nat) :
    ipc_read_bytes keyCfg (ipc_close_file store id).2 id offset length
      = some (.error ("Invalid file handle: " ++ id)) ∧
    (ipc_close_file (ipc_close_file store id).2 id).1 = .ok () := by
  refine ⟨?_, rfl⟩
  have hg : storeGet (ipc_close_file store id).2 id = none := by
    simp [ipc_close_file, storeRemove, storeGet]
  simp [ipc_read_bytes, hg]

/-- C7 counterexample: the claim asserts every open error carries the
requested path; when the OS-level open succeeds but reading metadata fails,
the code maps the error with `e.to_string()` alone, so the returned message
is just the cause and does not contain the path anywhere. -/
theorem open_metadata_error_omits_path_cex :
    (ipc_open_file
      (fun p => if p = "p" then FsEntry.metaFail [] "boom"
                else FsEntry.missing "nope")
      "fresh0" emptyStore "p").1 = Except.error "boom" ∧
    ¬ ∃ l1 l2 : List Char,
        ("boom" : String).data = l1 ++ ("p" : String).data ++ l2 := by
  refine ⟨rfl, ?_⟩
  rintro ⟨l1, l2, h⟩
  have hp : 'p' ∈ ("boom" : String).data := by
    rw [h]
    simp
  exact absurd hp (by decide)

/-- C7 (amended): an OS-level open failure returns an error of the exact
shape `Failed to open {path}: {cause}` — carrying the requested path and
the underlying cause — while a metadata failure after a successful open
returns the cause alone; in every failure case the store is unchanged, so
no handle is registered. -/
theorem open_error_reporting (fs : String → FsEntry) (fresh : String)
    (store : FileHandleStore) (path : String) :
    match fs path with
    | .missing cause =>
        ipc_open_file fs fresh store path
          = (.error ("Failed to open " ++ path ++ ": " ++ cause), store)
    | .metaFail _ cause =>
        ipc_open_file fs fresh store path = (.error cause, store)
    | .ok content =>
        ipc_open_file fs fresh store path
          = (.ok (fresh, content.length),
             storeInsert store fresh ⟨content, content.length⟩) := by
  cases h : fs path <;> simp [ipc_open_file, h]

/-- C8: with no key compiled in, a successful read returns the bytes of the
file slice unmodified from disk; with a key compiled in, the same read
returns exactly that slice passed through the XOR transform keyed at the
read's absolute offset. -/
theorem transform_applied_iff_key_present (key : List Nat)
    (store : FileHandleStore) (id : String) (entry : FileHandle)
    (offset length : Nat) (hid : storeGet store id = some entry)
    (hlen : length = 0 ∨ offset + length ≤ entry.content.length) :
    ipc_read_bytes none store id offset length
      = some (.ok ((entry.content.drop offset).take length)) ∧
    ipc_read_bytes (some key) store id offset length
      = (xorTransform key offset
          ((entry.content.drop offset).take length)).map Except.ok := by
  have hre : read_exact entry.content offset length
      = .ok ((entry.content.drop offset).take length) := by
    rcases hlen with h0 | hle
    · subst h0
      simp [read_exact]
    · exact read_exact_of_le _ _ _ hle
  constructor <;> simp [ipc_read_bytes, hid, hre]

theorem transform_applied_iff_key_present_witness :
    ipc_read_bytes none (storeInsert emptyStore "k" ⟨[8, 9, 10], 3⟩)
      "k" 1 2 = some (.ok [9, 10]) ∧
    ipc_read_bytes (some [255]) (storeInsert emptyStore "k" ⟨[8, 9, 10], 3⟩)
      "k" 1 2 = (xorTransform [255] 1 [9, 10]).map Except.ok :=
  transform_applied_iff_key_present [255]
    (storeInsert emptyStore "k" ⟨[8, 9, 10], 3⟩) "k" ⟨[8, 9, 10], 3⟩
    1 2 (by decide) (by decide)

/-- C9: when the configured key has length ≥ 1, the keystream index
`(offset + i) % key_len` is always within the key's bounds, and a read with
that key never panics (the transform's out-of-bounds / remainder-by-zero
path, modelled by `none`, is unreachable). -/
theorem keyed_read_never_panics (key : List Nat) (hk : 1 ≤ key.length)
    (store : FileHandleStore) (id : String) (offset length : Nat) :
    (∀ i : Nat, (offset + i) % key.length < key.length) ∧
    ipc_read_bytes (some key) store id offset length ≠ none := by
  have hpos : 0 < key.length := hk
  have hne : key ≠ [] := by
    intro h
    rw [h] at hk
    simp at hk
  refine ⟨fun i => Nat.mod_lt _ hpos, ?_⟩
  unfold ipc_read_bytes
  cases hg : storeGet store id with
  | none => simp
  | some entry =>
    cases hr : read_exact entry.content offset length with
    | error e => simp [hr]
    | ok raw =>
      obtain ⟨out, hout⟩ := xorTransform_isSome key hne offset raw
      simp [hr, hout]

theorem keyed_read_never_panics_witness :
    (∀ i : Nat, (3 + i) % ([1, 2] : List Nat).length
       < ([1, 2] : List Nat).length) ∧
    ipc_read_bytes (some [1, 2]) (storeInsert emptyStore "n" ⟨[4, 5], 2⟩)
      "n" 3 7 ≠ none :=
  keyed_read_never_panics [1, 2] (by decide)
    (storeInsert emptyStore "n" ⟨[4, 5], 2⟩) "n" 3 7

end SplatViewer
